import Mathlib

/-!
# Verification of the MathLogic expression engine

Shallow embedding of the propositional-logic expression engine:
the `LogicEvaluator` class (infix-to-postfix conversion and stack
evaluation) from `public/js/logic-core.js`, and the
`TruthTableGenerator` class (variable extraction, combination
enumeration, table generation and answer checking).

Strings are modelled as `List Char`; JS runtime values flowing through
the evaluation stack are modelled by `JVal` (a boolean or `undefined`),
because a JS `Array.prototype.pop` on an empty array returns
`undefined` and a missing assignment entry reads as `undefined`.
JS exceptions are modelled with `Except String`.
-/

set_option maxRecDepth 10000

namespace MathLogic

/-- A JS value on the evaluation stack: a boolean or `undefined`. -/
inductive JVal where
  | bool (b : Bool)
  | undefined
  deriving DecidableEq, Repr

/-- JS truthiness of a stack value (`undefined` is falsy). -/
def truthy : JVal → Bool
  | .bool b => b
  | .undefined => false

/-- JS `!v` (always yields a boolean). -/
def jsNot (v : JVal) : JVal := .bool (!truthy v)

/-- JS `a && b`: returns `a` when `a` is falsy, otherwise `b`. -/
def jsAnd (a b : JVal) : JVal := if truthy a then b else a

/-- JS `a || b`: returns `a` when `a` is truthy, otherwise `b`. -/
def jsOr (a b : JVal) : JVal := if truthy a then a else b

/-- JS strict equality `a === b` on the values that can occur on the
evaluation stack (booleans and `undefined`). -/
def jsStrictEq (a b : JVal) : Bool := decide (a = b)

/-- `LogicEvaluator.isVariable`: the regex test `/^[a-zA-Z]$/`. -/
def isVariable (c : Char) : Bool :=
  ('a' ≤ c && c ≤ 'z') || ('A' ≤ c && c ≤ 'Z')

/-- Truthiness of `this.operators[char]` in `LogicEvaluator`: the five
operator symbols of the precedence table. -/
def isOperator (c : Char) : Bool :=
  c == '~' || c == '∧' || c == '∨' || c == '→' || c == '↔'

/-- The `precedence` field of `LogicEvaluator.operators`
(`~` 4, `∧` 3, `∨` 2, `→` 1, `↔` 1); only read for operator symbols. -/
def precedence (c : Char) : Nat :=
  if c == '~' then 4 else if c == '∧' then 3 else if c == '∨' then 2 else 1

/-- Truthiness of `this.operators[token].unary` (only `~`). -/
def isUnaryOp (c : Char) : Bool := c == '~'

/-- Truthiness of `this.operators[token].binary` (the four binary symbols). -/
def isBinaryOp (c : Char) : Bool :=
  c == '∧' || c == '∨' || c == '→' || c == '↔'

/-- The inner `while` of the operator case of `infixToPostfix`: pop stack
entries to output while the top is not `(`, is an operator, and has
precedence `>=` the incoming precedence `p`.  Returns the popped tokens
(in pop order) and the remaining stack. -/
def popWhileGE (p : Nat) : List Char → List Char × List Char
  | [] => ([], [])
  | t :: rest =>
    if t ≠ '(' ∧ isOperator t = true ∧ p ≤ precedence t then
      ((popWhileGE p rest).1.cons t, (popWhileGE p rest).2)
    else ([], t :: rest)

/-- The `)` case of `infixToPostfix`: pop operators to output until a `(`
is found (the `(` itself is popped and discarded); an absent `(` just
empties the stack.  Returns the popped tokens and the remaining stack. -/
def popUntilLParen : List Char → List Char × List Char
  | [] => ([], [])
  | t :: rest =>
    if t = '(' then ([], rest)
    else ((popUntilLParen rest).1.cons t, (popUntilLParen rest).2)

/-- One iteration of the scanning loop of `LogicEvaluator.infixToPostfix`,
acting on the pair (output so far, operator stack) for one character.
The stack has its top at the head. -/
def infixStep (st : List Char × List Char) (c : Char) : List Char × List Char :=
  if c = ' ' then st
  else if isVariable c then (st.1 ++ [c], st.2)
  else if c = '(' then (st.1, c :: st.2)
  else if c = ')' then (st.1 ++ (popUntilLParen st.2).1, (popUntilLParen st.2).2)
  else if isOperator c then
    (st.1 ++ (popWhileGE (precedence c) st.2).1,
      c :: (popWhileGE (precedence c) st.2).2)
  else st

/-- `LogicEvaluator.infixToPostfix`: scan the characters, then the final
`while` pops every remaining stack entry (top first) to the output. -/
def infixToPostfix (expression : List Char) : List Char :=
  (List.foldl infixStep ([], []) expression).1
    ++ (List.foldl infixStep ([], []) expression).2

/-- JS `stack.pop()`: yields `undefined` on an empty stack. -/
def pop (stack : List JVal) : JVal × List JVal :=
  match stack with
  | [] => (.undefined, [])
  | v :: rest => (v, rest)

/-- `LogicEvaluator.applyUnaryOperator`: `~` yields logical NOT; any other
symbol throws `Unknown unary operator`. -/
def applyUnaryOperator (op : Char) (operand : JVal) : Except String JVal :=
  if op = '~' then .ok (jsNot operand)
  else .error "Unknown unary operator"

/-- `LogicEvaluator.applyBinaryOperator`: `∧` is `operand1 && operand2`,
`∨` is `operand1 || operand2`, `→` is `!operand1 || operand2`, `↔` is
`operand1 === operand2`; any other symbol throws `Unknown binary operator`. -/
def applyBinaryOperator (op : Char) (operand1 operand2 : JVal) : Except String JVal :=
  if op = '∧' then .ok (jsAnd operand1 operand2)
  else if op = '∨' then .ok (jsOr operand1 operand2)
  else if op = '→' then .ok (jsOr (jsNot operand1) operand2)
  else if op = '↔' then .ok (.bool (jsStrictEq operand1 operand2))
  else .error "Unknown binary operator"

/-- Reading `variableValues[token]`: a missing key reads as `undefined`. -/
def jsLookup (assignment : Char → Option Bool) (c : Char) : JVal :=
  match assignment c with
  | some b => .bool b
  | none => .undefined

/-- One iteration of the token loop of `LogicEvaluator.evaluatePostfix`:
a variable pushes its assigned value; a unary operator pops one operand;
a binary operator pops two (first popped is `operand2`, second is
`operand1`) and pushes `applyBinaryOperator(token, operand1, operand2)`;
any other token is skipped.  The stack has its top at the head. -/
def evalStep (assignment : Char → Option Bool) (stack : List JVal) (c : Char) :
    Except String (List JVal) :=
  if isVariable c then .ok (jsLookup assignment c :: stack)
  else if isOperator c then
    if isUnaryOp c then
      (applyUnaryOperator c (pop stack).1).map (· :: (pop stack).2)
    else if isBinaryOp c then
      (applyBinaryOperator c (pop (pop stack).2).1 (pop stack).1).map
        (· :: (pop (pop stack).2).2)
    else .ok stack
  else .ok stack

/-- JS `stack[0]` on the final value stack: the bottom entry, or
`undefined` when the stack is empty. -/
def stackBottom (stack : List JVal) : JVal := stack.getLastD .undefined

/-- `LogicEvaluator.evaluatePostfix`: run the token loop on an empty
stack and return `stack[0]`. -/
def evaluatePostfix (tokens : List Char) (assignment : Char → Option Bool) :
    Except String JVal := do
  let stack ← tokens.foldlM (evalStep assignment) []
  return stackBottom stack

/-- `LogicEvaluator.evaluate`: convert to postfix, evaluate, and turn any
thrown error into the boolean `false`. -/
def evaluate (expression : List Char) (assignment : Char → Option Bool) : JVal :=
  match evaluatePostfix (infixToPostfix expression) assignment with
  | .ok v => v
  | .error _ => .bool false

/-- The operator list of `LogicCore.constructor`. -/
def coreOperators : List Char := ['∧', '∨', '~', '→', '↔']

/-- `LogicCore.isVariable`: a single ASCII letter that is not one of the
five operator symbols. -/
def coreIsVariable (c : Char) : Bool :=
  isVariable c && !(coreOperators.contains c)

/-- The `Set`-insertion pattern shared by
`TruthTableGenerator.getVariables` and
`LogicCore.getVariablesFromExpression`: append a character unless it is
already present (JS `Set` keeps first-insertion order). -/
def insertNew (l : List Char) (c : Char) : List Char :=
  if c ∈ l then l else l ++ [c]

/-- Scan the expression collecting the distinct characters satisfying
`pred`, in first-occurrence order. -/
def collectVars (pred : Char → Bool) (expression : List Char) : List Char :=
  expression.foldl (fun acc c => if pred c then insertNew acc c else acc) []

/-- `TruthTableGenerator.getVariables`: collect distinct letters
(`/^[a-zA-Z]$/`) and sort them (JS default sort = code-point order for
single-character strings). -/
def getVariables (expression : List Char) : List Char :=
  (collectVars isVariable expression).insertionSort (· ≤ ·)

/-- `LogicCore.getVariablesFromExpression`: same `Set`-and-sort pattern,
with the `LogicCore.isVariable` test. -/
def getVariablesFromExpression (expression : List Char) : List Char :=
  (collectVars coreIsVariable expression).insertionSort (· ≤ ·)

/-- The inner loop of `TruthTableGenerator.generateCombinations`: for
`j = variableCount-1` down to `0` push `((i >> j) & 1) ? true : false`.
The JS `>>` coerces its left operand to int32 and reduces the shift
count mod 32, so the pushed bit is bit `j % 32` of `i mod 2^32` (the
sign extension of the arithmetic shift never reaches bit 0 for shift
counts below 32). -/
def combinationOf (variableCount i : Nat) : List Bool :=
  (List.range variableCount).reverse.map
    (fun j => (((i % 2 ^ 32) >>> (j % 32)) &&& 1) == 1)

/-- `TruthTableGenerator.generateCombinations`: the `2^variableCount`
rows, in index order `0 .. 2^variableCount - 1`. -/
def generateCombinations (variableCount : Nat) : List (List Bool) :=
  (List.range (2 ^ variableCount)).map (combinationOf variableCount)

/-- The two error kinds thrown by `TruthTableGenerator.generateTable`
(the JS messages are `表达式不能为空` and `表达式中没有找到有效变元`). -/
inductive TableError where
  | emptyExpression
  | noVariablesFound
  deriving DecidableEq, Repr

/-- One row of `TruthTableGenerator.generateTable`; `vars` is the JS
field `variables` (a keyword in Lean). -/
structure Row where
  index : Nat
  vars : List Bool
  result : JVal
  userAnswer : Option Bool
  deriving DecidableEq, Repr

/-- The table object built by `TruthTableGenerator.generateTable`;
`vars` is the JS field `variables` (a keyword in Lean). -/
structure TruthTable where
  expression : List Char
  vars : List Char
  rows : List Row
  deriving DecidableEq, Repr

/-- The characters removed by JS `String.prototype.trim`: the
ECMAScript WhiteSpace set (TAB, VT, FF, SP, NBSP, ZWNBSP and the
Unicode Zs space separators) together with the LineTerminator set
(LF, CR, LS, PS). -/
def jsWhitespace (c : Char) : Bool :=
  c = '\t' || c = '\n' || c = '\x0B' || c = '\x0C' || c = '\r' || c = ' '
    || c = '\u00A0' || c = '\u1680'
    || ('\u2000' ≤ c && c ≤ '\u200A')
    || c = '\u2028' || c = '\u2029' || c = '\u202F' || c = '\u205F'
    || c = '\u3000' || c = '\uFEFF'

/-- JS `expression.trim()`: strip leading and trailing whitespace. -/
def jsTrim (s : List Char) : List Char :=
  ((s.dropWhile jsWhitespace).reverse.dropWhile jsWhitespace).reverse

/-- The `variableValues` object of one row: `variables.forEach((v, idx) =>
variableValues[v] = combination[idx])`; absent keys read as `undefined`. -/
def rowAssignment (vs : List Char) (combination : List Bool) :
    Char → Option Bool :=
  fun c => (vs.zip combination).lookup c

/-- The row built for combination number `p.1` with values `p.2`. -/
def buildRow (expression : List Char) (vs : List Char)
    (p : Nat × List Bool) : Row :=
  { index := p.1, vars := p.2,
    result := evaluate expression (rowAssignment vs p.2),
    userAnswer := none }

/-- `TruthTableGenerator.generateTable`: throw on a blank expression or
an empty variable set, otherwise build one row per combination. -/
def generateTable (expression : List Char) : Except TableError TruthTable :=
  if expression.isEmpty || (jsTrim expression).isEmpty then
    .error .emptyExpression
  else if (getVariables expression).isEmpty then
    .error .noVariablesFound
  else
    .ok { expression := expression,
          vars := getVariables expression,
          rows := (generateCombinations (getVariables expression).length).enum.map
            (buildRow expression (getVariables expression)) }

/-- One entry of the `results` list of `TruthTableGenerator.checkAnswers`. -/
structure ResultRow where
  index : Nat
  userAnswer : Option Bool
  correctAnswer : JVal
  isCorrect : Bool
  deriving DecidableEq, Repr

/-- The `score` field: the number `0`, or the string built by
`toFixed(1)`. -/
inductive ScoreVal where
  | num (n : Nat)
  | str (s : String)
  deriving DecidableEq, Repr

/-- The rounded tenths of a percent computed by
`(correct / total * 100).toFixed(1)`: round half up (ECMAScript
`toFixed` picks the larger candidate on ties) of `1000*correct/total`.
The JS double arithmetic is exact whenever `total` is a power of two,
which is the only row count `generateTable` produces. -/
def scoreTenths (correct total : Nat) : Nat :=
  (2000 * correct + total) / (2 * total)

/-- The decimal string produced by `toFixed(1)` from a value given in
tenths. -/
def toFixed1 (tenths : Nat) : String :=
  toString (tenths / 10) ++ "." ++ toString (tenths % 10)

/-- The `score` string of `checkAnswers` for a nonempty table. -/
def scoreString (correct total : Nat) : String :=
  toFixed1 (scoreTenths correct total)

/-- The summary object returned by `TruthTableGenerator.checkAnswers`. -/
structure CheckResult where
  correct : Nat
  total : Nat
  answered : Nat
  isComplete : Bool
  results : List ResultRow
  score : ScoreVal
  deriving DecidableEq, Repr

/-- The body of the `rows.map((row, index) => ...)` of `checkAnswers`
for positional index `p.1` and row `p.2`: an answered row records the
submitted answer and compares it with `row.result` by `===`; an
unanswered row records a `null` answer and `isCorrect: false`. -/
def checkRow (answers : Nat → Option Bool) (p : Nat × Row) : ResultRow :=
  match answers p.1 with
  | some u =>
    { index := p.1, userAnswer := some u, correctAnswer := p.2.result,
      isCorrect := jsStrictEq (.bool u) p.2.result }
  | none =>
    { index := p.1, userAnswer := none, correctAnswer := p.2.result,
      isCorrect := false }

/-- `TruthTableGenerator.checkAnswers` on a present table, as a pure
function of the table and the submitted answers (`this.userAnswers`):
the `correct` and `answered` counters are incremented exactly on the
rows whose result entry is correct, resp. answered. -/
def checkAnswers (table : TruthTable) (answers : Nat → Option Bool) : CheckResult :=
  { correct := (table.rows.enum.map (checkRow answers)).countP (fun r => r.isCorrect),
    total := table.rows.length,
    answered := (table.rows.enum.map (checkRow answers)).countP
      (fun r => r.userAnswer.isSome),
    isComplete := (table.rows.enum.map (checkRow answers)).countP
      (fun r => r.userAnswer.isSome) == table.rows.length,
    results := table.rows.enum.map (checkRow answers),
    score := if 0 < table.rows.length then
        .str (scoreString
          ((table.rows.enum.map (checkRow answers)).countP (fun r => r.isCorrect))
          table.rows.length)
      else .num 0 }

/-- The everywhere-undefined assignment (an empty `variableValues`). -/
def emptyAssignment : Char → Option Bool := fun _ => none

/-- The value of a tuple read as a big-endian binary number (position 0
is the most significant bit). -/
def bigEndianVal (bits : List Bool) : Nat :=
  bits.foldl (fun acc b => 2 * acc + (if b then 1 else 0)) 0

/-- The table `generateTable` builds for `(p∧q)` (used as a concrete
check input). -/
def c3table : TruthTable :=
  { expression := ['(', 'p', '∧', 'q', ')'],
    vars := ['p', 'q'],
    rows := [
      { index := 0, vars := [false, false], result := .bool false, userAnswer := none },
      { index := 1, vars := [false, true], result := .bool false, userAnswer := none },
      { index := 2, vars := [true, false], result := .bool false, userAnswer := none },
      { index := 3, vars := [true, true], result := .bool true, userAnswer := none }] }

/-- Fallback entry for positional access to a row list in statements. -/
def defaultRow : Row :=
  { index := 0, vars := [], result := .undefined, userAnswer := none }

/-- Fallback entry for positional access to a results list in statements. -/
def defaultResultRow : ResultRow :=
  { index := 0, userAnswer := none, correctAnswer := .undefined, isCorrect := false }

/-- A small concrete table used as a checking input. -/
def wTable : TruthTable :=
  { expression := ['p'], vars := ['p'],
    rows := [{ index := 0, vars := [false], result := .bool false, userAnswer := none },
             { index := 1, vars := [true], result := .bool true, userAnswer := none }] }

/-- A submitted-answer map answering only row 0 (used as a checking
input). -/
def wAnswers : Nat → Option Bool := fun i => if i = 0 then some false else none

/-! ## Theorems -/

/-- C1: `evaluatePostfix` implements the stated truth-functional
semantics with the stated operand order: a binary operator pops the
right operand `b` first and the left operand `a` second and pushes
`a AND b` for `∧`, `a OR b` for `∨`, `(NOT a) OR b` for `→` and
`a EQUALS b` for `↔`; `~` pops one operand and pushes its logical NOT;
consequently `evaluate("(p∧q)", {p: true, q: false})` is `false` and
`evaluate("(~p)", {p: true})` is `false`. -/
theorem evaluatePostfix_semantics :
    (∀ (assignment : Char → Option Bool) (s : List JVal) (a b : Bool),
      evalStep assignment (JVal.bool b :: JVal.bool a :: s) '∧'
          = Except.ok (JVal.bool (a && b) :: s)
      ∧ evalStep assignment (JVal.bool b :: JVal.bool a :: s) '∨'
          = Except.ok (JVal.bool (a || b) :: s)
      ∧ evalStep assignment (JVal.bool b :: JVal.bool a :: s) '→'
          = Except.ok (JVal.bool (!a || b) :: s)
      ∧ evalStep assignment (JVal.bool b :: JVal.bool a :: s) '↔'
          = Except.ok (JVal.bool (a == b) :: s)
      ∧ evalStep assignment (JVal.bool a :: s) '~'
          = Except.ok (JVal.bool (!a) :: s))
    ∧ evaluate "(p∧q)".toList
        (fun c => if c = 'p' then some true else if c = 'q' then some false else none)
        = JVal.bool false
    ∧ evaluate "(~p)".toList (fun c => if c = 'p' then some true else none)
        = JVal.bool false := by
  refine ⟨fun assignment s a b => ?_, by rfl, by rfl⟩
  refine ⟨?_, ?_, ?_, ?_, ?_⟩ <;> cases a <;> cases b <;> rfl

/-- C1 witness: the `∧` step at a concrete stack (left operand `false`
below, right operand `true` on top). -/
theorem evaluatePostfix_semantics_witness :
    evalStep emptyAssignment (JVal.bool true :: JVal.bool false :: []) '∧'
      = Except.ok (JVal.bool (false && true) :: []) :=
  (evaluatePostfix_semantics.1 emptyAssignment [] false true).1

/-- Every iteration of the `evaluatePostfix` loop succeeds: the `throw`
branches of `applyUnaryOperator`/`applyBinaryOperator` are guarded by
the `unary`/`binary` flags and are unreachable, and a stack underflow
just pops `undefined`. -/
theorem evalStep_ok (assignment : Char → Option Bool) (stack : List JVal) (c : Char) :
    ∃ s, evalStep assignment stack c = Except.ok s := by
  by_cases h1 : isVariable c = true
  · exact ⟨jsLookup assignment c :: stack, by simp [evalStep, h1]⟩
  · by_cases h2 : isOperator c = true
    · have h5 : c = '~' ∨ c = '∧' ∨ c = '∨' ∨ c = '→' ∨ c = '↔' := by
        have := h2
        simp only [isOperator, Bool.or_eq_true, beq_iff_eq] at this
        tauto
      rcases h5 with h | h | h | h | h <;> subst h <;> exact ⟨_, rfl⟩
    · exact ⟨stack, by simp [evalStep, h1, h2]⟩

/-- The whole token loop of `evaluatePostfix` succeeds from any stack. -/
theorem evalFold_ok (assignment : Char → Option Bool) :
    ∀ (tokens : List Char) (stack : List JVal),
      ∃ s, List.foldlM (evalStep assignment) stack tokens = Except.ok s := by
  intro tokens
  induction tokens with
  | nil => exact fun stack => ⟨stack, rfl⟩
  | cons c rest ih =>
    intro stack
    obtain ⟨s1, h1⟩ := evalStep_ok assignment stack c
    obtain ⟨s2, h2⟩ := ih s1
    refine ⟨s2, ?_⟩
    rw [List.foldlM_cons, h1]
    exact h2

/-- C2 counterexample: `evaluate` applied to the empty expression
returns `undefined`, which is not a boolean, so the returned value is
not always a boolean. -/
theorem evaluate_empty_returns_undefined :
    evaluate [] emptyAssignment = JVal.undefined
      ∧ JVal.undefined ≠ JVal.bool false ∧ JVal.undefined ≠ JVal.bool true :=
  ⟨rfl, by decide, by decide⟩

/-- C2 amended: no internal fault ever propagates out of `evaluate` —
indeed the underlying postfix evaluation always succeeds, because a
malformed-expression stack underflow pops `undefined` instead of
faulting and the unknown-operator throws are unreachable, so the
catch-and-return-`false` branch is never taken and `evaluate` returns
the evaluation's value — but that value is not always a boolean: it is
`undefined` for the empty expression (and other malformed inputs). -/
theorem evaluate_never_propagates :
    ∀ (expression : List Char) (assignment : Char → Option Bool),
      evaluatePostfix (infixToPostfix expression) assignment
          = Except.ok (evaluate expression assignment)
      ∧ evaluate [] assignment = JVal.undefined := by
  intro expression assignment
  obtain ⟨s, hs⟩ := evalFold_ok assignment (infixToPostfix expression) []
  have h1 : evaluatePostfix (infixToPostfix expression) assignment
      = Except.ok (stackBottom s) := by
    unfold evaluatePostfix
    rw [hs]
    rfl
  have h2 : evaluate expression assignment = stackBottom s := by
    unfold evaluate
    rw [h1]
  exact ⟨by rw [h1, h2], rfl⟩

/-- C2 witness (for the amended theorem): the equation at a concrete
expression and assignment. -/
theorem evaluate_never_propagates_witness :
    evaluatePostfix (infixToPostfix "(p∧q)".toList) emptyAssignment
        = Except.ok (evaluate "(p∧q)".toList emptyAssignment)
      ∧ evaluate [] emptyAssignment = JVal.undefined :=
  evaluate_never_propagates "(p∧q)".toList emptyAssignment

/-- Membership in the `Set`-insertion step. -/
theorem mem_insertNew {l : List Char} {c x : Char} :
    x ∈ insertNew l c ↔ x ∈ l ∨ x = c := by
  unfold insertNew
  by_cases h : c ∈ l
  · rw [if_pos h]
    exact ⟨Or.inl, fun hx => hx.elim id (fun he => he ▸ h)⟩
  · rw [if_neg h]
    simp

/-- The `Set`-insertion step keeps the collected list duplicate-free. -/
theorem nodup_insertNew {l : List Char} {c : Char} (h : l.Nodup) :
    (insertNew l c).Nodup := by
  unfold insertNew
  by_cases hc : c ∈ l
  · rw [if_pos hc]; exact h
  · rw [if_neg hc]
    simp [List.nodup_append, h, hc]

/-- Membership in the collecting fold of `getVariables`. -/
theorem collectVars_go_mem (pred : Char → Bool) :
    ∀ (l acc : List Char) (x : Char),
      x ∈ l.foldl (fun a c => if pred c then insertNew a c else a) acc
        ↔ x ∈ acc ∨ (x ∈ l ∧ pred x = true) := by
  intro l
  induction l with
  | nil => simp
  | cons c rest ih =>
    intro acc x
    rw [List.foldl_cons]
    by_cases hp : pred c = true
    · rw [if_pos hp, ih, mem_insertNew]
      constructor
      · rintro ((hx | rfl) | ⟨hr, hpx⟩)
        · exact Or.inl hx
        · exact Or.inr ⟨List.mem_cons_self _ _, hp⟩
        · exact Or.inr ⟨List.mem_cons_of_mem _ hr, hpx⟩
      · rintro (hx | ⟨hm, hpx⟩)
        · exact Or.inl (Or.inl hx)
        · rcases List.mem_cons.mp hm with rfl | hr
          · exact Or.inl (Or.inr rfl)
          · exact Or.inr ⟨hr, hpx⟩
    · rw [if_neg hp, ih]
      constructor
      · rintro (hx | ⟨hr, hpx⟩)
        · exact Or.inl hx
        · exact Or.inr ⟨List.mem_cons_of_mem _ hr, hpx⟩
      · rintro (hx | ⟨hm, hpx⟩)
        · exact Or.inl hx
        · rcases List.mem_cons.mp hm with rfl | hr
          · exact absurd hpx hp
          · exact Or.inr ⟨hr, hpx⟩

/-- The collecting fold of `getVariables` never creates duplicates. -/
theorem collectVars_go_nodup (pred : Char → Bool) :
    ∀ (l acc : List Char), acc.Nodup →
      (l.foldl (fun a c => if pred c then insertNew a c else a) acc).Nodup := by
  intro l
  induction l with
  | nil => exact fun _ h => h
  | cons c rest ih =>
    intro acc h
    rw [List.foldl_cons]
    by_cases hp : pred c = true
    · rw [if_pos hp]; exact ih _ (nodup_insertNew h)
    · rw [if_neg hp]; exact ih _ h

/-- Collecting over a duplicate-free list of collected characters is the
identity (up to the initial accumulator). -/
theorem collectVars_go_of_nodup (pred : Char → Bool) :
    ∀ (l acc : List Char), l.Nodup → (∀ x ∈ l, pred x = true) →
      (∀ x ∈ l, x ∉ acc) →
      l.foldl (fun a c => if pred c then insertNew a c else a) acc = acc ++ l := by
  intro l
  induction l with
  | nil => simp
  | cons c rest ih =>
    intro acc hnd hp hd
    rw [List.foldl_cons, if_pos (hp c (List.mem_cons_self _ _))]
    have hcacc : c ∉ acc := hd c (List.mem_cons_self _ _)
    have hstep : insertNew acc c = acc ++ [c] := by
      unfold insertNew
      rw [if_neg hcacc]
    rw [hstep, ih (acc ++ [c]) (List.nodup_cons.mp hnd).2
      (fun x hx => hp x (List.mem_cons_of_mem _ hx)) ?_]
    · simp
    · intro x hx
      simp only [List.mem_append, List.mem_singleton]
      rintro (hxa | rfl)
      · exact hd x (List.mem_cons_of_mem _ hx) hxa
      · exact (List.nodup_cons.mp hnd).1 hx

/-- `LogicCore.isVariable` agrees with the bare letter test: none of the
five operator symbols is an ASCII letter, so the extra exclusion is
vacuous. -/
theorem coreIsVariable_eq (c : Char) : coreIsVariable c = isVariable c := by
  unfold coreIsVariable
  by_cases h : c ∈ coreOperators
  · have h2 : isVariable c = false := by fin_cases h <;> rfl
    simp [h2]
  · have h3 : coreOperators.contains c = false := by simpa using h
    rw [h3]
    simp

/-- C4: `getVariables` (and `getVariablesFromExpression`) returns the
distinct single-letter variables of the expression with no duplicates,
sorted ascending by character code; it is idempotent and both
implementations agree. -/
theorem extractVariables_spec :
    ∀ expression : List Char,
      (getVariables expression).Nodup
      ∧ (getVariables expression).Sorted (· ≤ ·)
      ∧ (∀ c : Char, c ∈ getVariables expression
          ↔ c ∈ expression ∧ isVariable c = true)
      ∧ getVariables (getVariables expression) = getVariables expression
      ∧ getVariablesFromExpression expression = getVariables expression := by
  intro expression
  have hnd : (collectVars isVariable expression).Nodup :=
    collectVars_go_nodup isVariable expression [] List.nodup_nil
  have hmem : ∀ c : Char, c ∈ getVariables expression
      ↔ c ∈ expression ∧ isVariable c = true := by
    intro c
    unfold getVariables
    rw [List.mem_insertionSort]
    unfold collectVars
    rw [collectVars_go_mem]
    simp
  have hsortnd : (getVariables expression).Nodup :=
    (List.perm_insertionSort (· ≤ ·) (collectVars isVariable expression)).nodup_iff.mpr hnd
  have hsorted : (getVariables expression).Sorted (· ≤ ·) :=
    List.sorted_insertionSort (· ≤ ·) (collectVars isVariable expression)
  refine ⟨hsortnd, hsorted, hmem, ?_, ?_⟩
  · have hall : ∀ x ∈ getVariables expression, isVariable x = true :=
      fun x hx => ((hmem x).mp hx).2
    have hcoll : collectVars isVariable (getVariables expression)
        = getVariables expression := by
      unfold collectVars
      rw [collectVars_go_of_nodup isVariable _ [] hsortnd hall (by simp)]
      simp
    unfold getVariables
    conv_lhs => rw [show collectVars isVariable
      ((collectVars isVariable expression).insertionSort (· ≤ ·))
        = collectVars isVariable (getVariables expression) from rfl, hcoll]
    exact List.Sorted.insertionSort_eq hsorted
  · unfold getVariablesFromExpression getVariables
    have : coreIsVariable = isVariable := funext coreIsVariable_eq
    rw [this]

/-- C4 witness: idempotence at a concrete formula. -/
theorem extractVariables_spec_witness :
    getVariables (getVariables "(p→q)".toList) = getVariables "(p→q)".toList :=
  (extractVariables_spec "(p→q)".toList).2.2.2.1

/-- Unfolding one step of `combinationOf`: the first pushed bit is the
one for `j = n` (the loop runs `j` from `variableCount - 1` down to
`0`). -/
theorem combinationOf_succ (n i : Nat) :
    combinationOf (n + 1) i
      = ((((i % 2 ^ 32) >>> (n % 32)) &&& 1) == 1) :: combinationOf n i := by
  unfold combinationOf
  rw [List.range_succ, List.reverse_append]
  simp

/-- For shift counts below 32, bit `n` of `i mod 2^32` is bit `n` of
`i`: the int32 coercion only cuts bits 32 and above. -/
theorem bit_of_mod_two_pow (i n : Nat) (h : n < 32) :
    (i % 2 ^ 32) / 2 ^ n % 2 = i / 2 ^ n % 2 := by
  have h32 : (2 : Nat) ^ 32 = 2 ^ n * 2 ^ (32 - n) := by
    rw [← pow_add]
    congr 1
    omega
  rw [h32, Nat.mod_mul_right_div_self]
  exact Nat.mod_mod_of_dvd _ (dvd_pow_self 2 (by omega))

/-- Each combination has one entry per variable. -/
theorem combinationOf_length (n i : Nat) : (combinationOf n i).length = n := by
  simp [combinationOf]

/-- The big-endian fold with a nonzero accumulator. -/
theorem bigEndianVal_foldl :
    ∀ (l : List Bool) (a : Nat),
      l.foldl (fun acc b => 2 * acc + (if b then 1 else 0)) a
        = a * 2 ^ l.length + bigEndianVal l := by
  intro l
  induction l with
  | nil => intro a; simp [bigEndianVal]
  | cons b l ih =>
    intro a
    have hb : bigEndianVal (b :: l)
        = (if b then 1 else 0) * 2 ^ l.length + bigEndianVal l := by
      calc bigEndianVal (b :: l)
          = l.foldl (fun (acc : Nat) (x : Bool) => 2 * acc + (if x then 1 else 0))
              (2 * 0 + if b then 1 else 0) := rfl
        _ = (2 * 0 + if b then 1 else 0) * 2 ^ l.length + bigEndianVal l := ih _
        _ = (if b then 1 else 0) * 2 ^ l.length + bigEndianVal l := by ring_nf
    rw [List.foldl_cons, ih, hb, List.length_cons, pow_succ]
    ring

/-- For at most 32 variables the tuple built for index `i` is the
big-endian representation of `i` (modulo `2 ^ n`, which is `i` itself
for every produced index). -/
theorem bigEndianVal_combinationOf (n i : Nat) (hn : n ≤ 32) :
    bigEndianVal (combinationOf n i) = i % 2 ^ n := by
  induction n with
  | zero => simp [combinationOf, bigEndianVal, Nat.mod_one]
  | succ n ih =>
    rw [combinationOf_succ]
    have hcons : bigEndianVal ((((i % 2 ^ 32) >>> (n % 32)) &&& 1 == 1) :: combinationOf n i)
        = (2 * 0 + if ((i % 2 ^ 32) >>> (n % 32)) &&& 1 == 1 then 1 else 0) * 2 ^ n
          + bigEndianVal (combinationOf n i) := by
      calc bigEndianVal ((((i % 2 ^ 32) >>> (n % 32)) &&& 1 == 1) :: combinationOf n i)
          = (combinationOf n i).foldl
              (fun (acc : Nat) (x : Bool) => 2 * acc + (if x then 1 else 0))
              (2 * 0 + if ((i % 2 ^ 32) >>> (n % 32)) &&& 1 == 1 then 1 else 0) := rfl
        _ = (2 * 0 + if ((i % 2 ^ 32) >>> (n % 32)) &&& 1 == 1 then 1 else 0)
              * 2 ^ (combinationOf n i).length + bigEndianVal (combinationOf n i) :=
            bigEndianVal_foldl _ _
        _ = (2 * 0 + if ((i % 2 ^ 32) >>> (n % 32)) &&& 1 == 1 then 1 else 0) * 2 ^ n
              + bigEndianVal (combinationOf n i) := by rw [combinationOf_length]
    rw [hcons, ih (by omega)]
    rw [Nat.mod_eq_of_lt (show n < 32 by omega), Nat.shiftRight_eq_div_pow,
      Nat.and_one_is_mod, bit_of_mod_two_pow i n (by omega)]
    have h1 : i % 2 ^ n < 2 ^ n := Nat.mod_lt _ (Nat.two_pow_pos n)
    have h2 : (i / 2 ^ n) % 2 = 0 ∨ (i / 2 ^ n) % 2 = 1 := by omega
    have hdm1 : 2 ^ n * (i / 2 ^ n) + i % 2 ^ n = i := Nat.div_add_mod i (2 ^ n)
    have hdm2 : 2 * (i / 2 ^ n / 2) + (i / 2 ^ n) % 2 = i / 2 ^ n :=
      Nat.div_add_mod _ 2
    have hps : 2 ^ (n + 1) = 2 ^ n * 2 := pow_succ 2 n
    have hi : i = 2 ^ (n + 1) * (i / 2 ^ n / 2)
        + ((i / 2 ^ n) % 2 * 2 ^ n + i % 2 ^ n) := by
      conv_lhs => rw [← hdm1, ← hdm2]
      rw [hps]
      ring
    have hlt : (i / 2 ^ n) % 2 * 2 ^ n + i % 2 ^ n < 2 ^ (n + 1) := by
      rw [hps]
      rcases h2 with h | h <;> rw [h] <;> omega
    have hmod : i % 2 ^ (n + 1) = (i / 2 ^ n) % 2 * 2 ^ n + i % 2 ^ n := by
      conv_lhs => rw [hi]
      rw [Nat.mul_add_mod]
      exact Nat.mod_eq_of_lt hlt
    rw [hmod]
    rcases h2 with h | h <;> rw [h] <;> simp

/-- C3 counterexample: with 33 variables the int32 coercion of the JS
`>>` wraps, so tuple `2^32` is identical to tuple `0` and the produced
tuples are not pairwise distinct (nor big-endian representations of
their indices). -/
theorem generateCombinations_int32_wraps :
    combinationOf 33 0 = combinationOf 33 (2 ^ 32)
    ∧ ¬ (generateCombinations 33).Nodup := by
  have heq : combinationOf 33 0 = combinationOf 33 (2 ^ 32) := by decide
  refine ⟨heq, ?_⟩
  intro hnd
  have hlen : (generateCombinations 33).length = 2 ^ 33 := by
    simp [generateCombinations]
  have h0 : (generateCombinations 33)[0]? = some (combinationOf 33 0) := by
    rw [generateCombinations, List.getElem?_map, List.getElem?_range (by norm_num)]
    rfl
  have h1 : (generateCombinations 33)[2 ^ 32]? = some (combinationOf 33 (2 ^ 32)) := by
    rw [generateCombinations, List.getElem?_map,
      List.getElem?_range (by norm_num : 2 ^ 32 < 2 ^ 33)]
    rfl
  have hij : (0 : Nat) = 2 ^ 32 := by
    apply List.getElem?_inj (by rw [hlen]; norm_num) hnd
    rw [h0, h1, heq]
  norm_num at hij

/-- C3 amended: `generateCombinations n` always produces exactly `2^n`
tuples of length `n`, and for `n ≤ 32` — within the int32 range of the
JS `>>` coercion — they are pairwise distinct, tuple `i` is the
big-endian `n`-bit representation of `i` (position 0 the most
significant bit), and the tuples are strictly increasing read as
big-endian numbers; beyond 32 variables the int32 wrap makes tuples
repeat.  Every table `generateTable` accepts has exactly `2^n` rows for
its `n` variables. -/
theorem generateCombinations_spec :
    (∀ n : Nat, (generateCombinations n).length = 2 ^ n)
    ∧ (∀ n : Nat, ∀ t ∈ generateCombinations n, t.length = n)
    ∧ (∀ n : Nat, n ≤ 32 → (generateCombinations n).Nodup)
    ∧ (∀ n i : Nat, i < 2 ^ n →
        (generateCombinations n)[i]? = some (combinationOf n i))
    ∧ (∀ n i : Nat, n ≤ 32 → i < 2 ^ n →
        bigEndianVal (combinationOf n i) = i)
    ∧ (∀ n i j : Nat, n ≤ 32 → i < j → j < 2 ^ n →
        bigEndianVal (combinationOf n i) < bigEndianVal (combinationOf n j))
    ∧ (∀ (expression : List Char) (t : TruthTable),
        generateTable expression = Except.ok t →
        t.rows.length = 2 ^ t.vars.length) := by
  refine ⟨?_, ?_, ?_, ?_, ?_, ?_, ?_⟩
  · intro n
    simp [generateCombinations]
  · intro n t ht
    rw [generateCombinations, List.mem_map] at ht
    obtain ⟨i, _, rfl⟩ := ht
    exact combinationOf_length n i
  · intro n hn
    rw [generateCombinations]
    refine List.Nodup.map_on ?_ (List.nodup_range _)
    intro x hx y hy hf
    have hv := congrArg bigEndianVal hf
    rw [bigEndianVal_combinationOf _ _ hn, bigEndianVal_combinationOf _ _ hn] at hv
    rw [List.mem_range] at hx hy
    rwa [Nat.mod_eq_of_lt hx, Nat.mod_eq_of_lt hy] at hv
  · intro n i h
    rw [generateCombinations, List.getElem?_map, List.getElem?_range h]
    rfl
  · intro n i hn h
    rw [bigEndianVal_combinationOf _ _ hn]
    exact Nat.mod_eq_of_lt h
  · intro n i j hn hij hj
    rw [bigEndianVal_combinationOf _ _ hn, bigEndianVal_combinationOf _ _ hn,
      Nat.mod_eq_of_lt (lt_trans hij hj), Nat.mod_eq_of_lt hj]
    exact hij
  · intro expression t h
    unfold generateTable at h
    by_cases h1 : (expression.isEmpty || (jsTrim expression).isEmpty) = true
    · rw [if_pos h1] at h
      exact absurd h (by simp)
    · rw [if_neg h1] at h
      by_cases h2 : (getVariables expression).isEmpty = true
      · rw [if_pos h2] at h
        exact absurd h (by simp)
      · rw [if_neg h2] at h
        injection h with ht
        subst ht
        simp [generateCombinations]

/-- C3 witness: tuple number 2 of `generateCombinations 2` and the
4-row table generated for `(p∧q)`. -/
theorem generateCombinations_spec_witness :
    (generateCombinations 2)[2]? = some (combinationOf 2 2)
    ∧ bigEndianVal (combinationOf 2 2) = 2
    ∧ c3table.rows.length = 2 ^ c3table.vars.length := by
  have h : generateTable "(p∧q)".toList = Except.ok c3table := by rfl
  exact ⟨generateCombinations_spec.2.2.2.1 2 2 (by decide),
    generateCombinations_spec.2.2.2.2.1 2 2 (by decide) (by decide),
    generateCombinations_spec.2.2.2.2.2.2 "(p∧q)".toList c3table h⟩

/-- C5: an operator token pops every stack operator above any `(` whose
precedence is `>=` its own before being pushed (the strict `>=`
comparison makes same-precedence binary operators left-associative, so
the postfix of `p→q↔r` applies `→` before `↔`). -/
theorem infixToPostfix_left_assoc :
    (∀ (out st : List Char) (c : Char), isOperator c = true →
      infixStep (out, st) c
        = (out ++ (popWhileGE (precedence c) st).1,
            c :: (popWhileGE (precedence c) st).2))
    ∧ (∀ (p : Nat) (st : List Char),
        st = (popWhileGE p st).1 ++ (popWhileGE p st).2
        ∧ (∀ t ∈ (popWhileGE p st).1,
            t ≠ '(' ∧ isOperator t = true ∧ p ≤ precedence t)
        ∧ (∀ t : Char, (popWhileGE p st).2.head? = some t →
            t = '(' ∨ isOperator t = false ∨ precedence t < p))
    ∧ infixToPostfix "p→q↔r".toList = "pq→r↔".toList := by
  refine ⟨?_, ?_, by decide⟩
  · intro out st c hc
    have h5 : c = '~' ∨ c = '∧' ∨ c = '∨' ∨ c = '→' ∨ c = '↔' := by
      simp only [isOperator, Bool.or_eq_true, beq_iff_eq] at hc
      tauto
    rcases h5 with h | h | h | h | h <;> subst h <;> rfl
  · intro p st
    induction st with
    | nil => exact ⟨rfl, by simp [popWhileGE], by simp [popWhileGE]⟩
    | cons t rest ih =>
      by_cases hcond : t ≠ '(' ∧ isOperator t = true ∧ p ≤ precedence t
      · have hstep : popWhileGE p (t :: rest)
            = (t :: (popWhileGE p rest).1, (popWhileGE p rest).2) := by
          simp only [popWhileGE]
          rw [if_pos hcond]
        refine ⟨?_, ?_, ?_⟩
        · rw [hstep]
          exact congrArg (t :: ·) ih.1
        · rw [hstep]
          intro x hx
          rcases List.mem_cons.mp hx with rfl | hx
          · exact hcond
          · exact ih.2.1 x hx
        · rw [hstep]
          exact ih.2.2
      · have hstep : popWhileGE p (t :: rest) = ([], t :: rest) := by
          simp only [popWhileGE]
          rw [if_neg hcond]
        refine ⟨by rw [hstep]; rfl, by rw [hstep]; simp, ?_⟩
        rw [hstep]
        intro x hx
        have hxt : t = x := by
          simpa using hx
        subst hxt
        push_neg at hcond
        by_cases h1 : t = '('
        · exact Or.inl h1
        · by_cases h2 : isOperator t = true
          · exact Or.inr (Or.inr (hcond h1 h2))
          · exact Or.inr (Or.inl (by simpa using h2))

/-- C5 witness: scanning `∨` over a stack holding `∧` (precedence 3 ≥ 2)
pops the `∧` before the `∨` is pushed. -/
theorem infixToPostfix_left_assoc_witness :
    infixStep ([], ['∧']) '∨'
      = ([] ++ (popWhileGE (precedence '∨') ['∧']).1,
          '∨' :: (popWhileGE (precedence '∨') ['∧']).2) :=
  infixToPostfix_left_assoc.1 [] ['∧'] '∨' (by decide)

/-- C6: `generateTable` fails with the empty-expression error iff the
trimmed expression is empty; otherwise it fails with the
no-variables-found error iff the expression contains no single-letter
variable; `generateTable("")` and `generateTable("1+1")` fail
accordingly (and a failing call returns an error, never a table). -/
theorem generateTable_errors :
    (∀ expression : List Char,
      (generateTable expression = Except.error TableError.emptyExpression
        ↔ jsTrim expression = [])
      ∧ (jsTrim expression ≠ [] →
          (generateTable expression = Except.error TableError.noVariablesFound
            ↔ getVariables expression = [])))
    ∧ generateTable "".toList = Except.error TableError.emptyExpression
    ∧ generateTable "1+1".toList = Except.error TableError.noVariablesFound := by
  refine ⟨?_, rfl, rfl⟩
  intro expression
  have hiff : (expression.isEmpty || (jsTrim expression).isEmpty) = true
      ↔ jsTrim expression = [] := by
    rw [Bool.or_eq_true, List.isEmpty_iff, List.isEmpty_iff]
    constructor
    · rintro (h | h)
      · rw [h]; rfl
      · exact h
    · exact Or.inr
  constructor
  · constructor
    · intro h
      by_contra hne
      have hcond : ¬((expression.isEmpty || (jsTrim expression).isEmpty) = true) :=
        fun hc => hne (hiff.mp hc)
      unfold generateTable at h
      rw [if_neg hcond] at h
      by_cases h2 : (getVariables expression).isEmpty = true
      · rw [if_pos h2] at h
        exact TableError.noConfusion (Except.error.inj h)
      · rw [if_neg h2] at h
        exact Except.noConfusion h
    · intro h
      unfold generateTable
      rw [if_pos (hiff.mpr h)]
  · intro hne
    have hcond : ¬((expression.isEmpty || (jsTrim expression).isEmpty) = true) :=
      fun hc => hne (hiff.mp hc)
    constructor
    · intro h
      unfold generateTable at h
      rw [if_neg hcond] at h
      by_cases h2 : (getVariables expression).isEmpty = true
      · exact List.isEmpty_iff.mp h2
      · rw [if_neg h2] at h
        exact Except.noConfusion h
    · intro h
      unfold generateTable
      rw [if_neg hcond, if_pos (by rw [List.isEmpty_iff]; exact h)]

/-- C6 witness: the two characterizations at concrete inputs, and the
whitespace-only input `"\x0B"` (vertical tab), which trims to empty and
is classified as an empty expression. -/
theorem generateTable_errors_witness :
    (generateTable "p".toList = Except.error TableError.emptyExpression
      ↔ jsTrim "p".toList = [])
    ∧ (generateTable "1+1".toList = Except.error TableError.noVariablesFound
      ↔ getVariables "1+1".toList = [])
    ∧ generateTable "\x0B".toList = Except.error TableError.emptyExpression :=
  ⟨(generateTable_errors.1 "p".toList).1,
   (generateTable_errors.1 "1+1".toList).2 (by decide),
   ((generateTable_errors.1 "\x0B".toList).1).mpr (by decide)⟩

/-- The `)` loop only emits non-`(` tokens. -/
theorem paren_not_in_popUntil : ∀ st : List Char, '(' ∉ (popUntilLParen st).1 := by
  intro st
  induction st with
  | nil => simp [popUntilLParen]
  | cons t rest ih =>
    by_cases ht : t = '('
    · simp [popUntilLParen, ht]
    · simp only [popUntilLParen]
      rw [if_neg ht]
      intro hmem
      rcases List.mem_cons.mp hmem with h | h
      · exact ht h.symm
      · exact ih h

/-- The operator-precedence loop only emits non-`(` tokens. -/
theorem paren_not_in_popWhile :
    ∀ (p : Nat) (st : List Char), '(' ∉ (popWhileGE p st).1 := by
  intro p st
  induction st with
  | nil => simp [popWhileGE]
  | cons t rest ih =>
    by_cases hcond : t ≠ '(' ∧ isOperator t = true ∧ p ≤ precedence t
    · simp only [popWhileGE]
      rw [if_pos hcond]
      intro hmem
      rcases List.mem_cons.mp hmem with h | h
      · exact hcond.1 h.symm
      · exact ih h
    · simp only [popWhileGE]
      rw [if_neg hcond]
      simp

/-- During scanning, no `(` ever enters the output part of the state. -/
theorem paren_not_in_scan_output :
    ∀ (expression out st : List Char), '(' ∉ out →
      '(' ∉ (List.foldl infixStep (out, st) expression).1 := by
  intro expression
  induction expression with
  | nil => exact fun out st h => h
  | cons c cs ih =>
    intro out st h
    rw [List.foldl_cons]
    have hstep : '(' ∉ (infixStep (out, st) c).1 := by
      unfold infixStep
      by_cases h1 : c = ' '
      · rw [if_pos h1]; exact h
      · rw [if_neg h1]
        by_cases h2 : isVariable c = true
        · rw [if_pos h2]
          intro hmem
          rcases List.mem_append.mp hmem with hm | hm
          · exact h hm
          · have : c = '(' := (List.mem_singleton.mp hm).symm
            subst this
            exact absurd h2 (by decide)
        · rw [if_neg h2]
          by_cases h3 : c = '('
          · rw [if_pos h3]; exact h
          · rw [if_neg h3]
            by_cases h4 : c = ')'
            · rw [if_pos h4]
              intro hmem
              rcases List.mem_append.mp hmem with hm | hm
              · exact h hm
              · exact paren_not_in_popUntil st hm
            · rw [if_neg h4]
              by_cases h5 : isOperator c = true
              · rw [if_pos h5]
                intro hmem
                rcases List.mem_append.mp hmem with hm | hm
                · exact h hm
                · exact paren_not_in_popWhile (precedence c) st hm
              · rw [if_neg h5]; exact h
    exact ih _ _ hstep

/-- C8 counterexample: the stray `(` of `"(p"` is not discarded at the
end of input; the returned postfix sequence contains it. -/
theorem infixToPostfix_keeps_stray_paren :
    infixToPostfix "(p".toList = ['p', '(']
    ∧ '(' ∈ infixToPostfix "(p".toList :=
  ⟨rfl, by decide⟩

/-- C8 amended: at end of input every remaining stack entry is popped to
the output — stray `(` tokens included, they are not discarded — so the
returned postfix sequence contains a `(` exactly when an unmatched `(`
remains on the operator stack; the scan itself never emits `(` into the
output part. -/
theorem infixToPostfix_end_flush :
    ∀ expression : List Char,
      infixToPostfix expression
        = (List.foldl infixStep ([], []) expression).1
          ++ (List.foldl infixStep ([], []) expression).2
      ∧ '(' ∉ (List.foldl infixStep ([], []) expression).1
      ∧ ('(' ∈ infixToPostfix expression
          ↔ '(' ∈ (List.foldl infixStep ([], []) expression).2) := by
  intro expression
  have h1 : '(' ∉ (List.foldl infixStep ([], []) expression).1 :=
    paren_not_in_scan_output expression [] [] (by simp)
  refine ⟨rfl, h1, ?_⟩
  unfold infixToPostfix
  rw [List.mem_append]
  constructor
  · rintro (h | h)
    · exact absurd h h1
    · exact h
  · exact Or.inr

/-- C8 witness (for the amended theorem): at the concrete input `"(p"`
the scanned output contains no `(` (the one in the result comes from the
final stack flush). -/
theorem infixToPostfix_end_flush_witness :
    '(' ∉ (List.foldl infixStep ([], []) "(p".toList).1 :=
  (infixToPostfix_end_flush "(p".toList).2.1

/-- With no `(` on the stack, the `)` loop empties the whole stack into
the output without error. -/
theorem popUntilLParen_no_paren :
    ∀ st : List Char, '(' ∉ st → popUntilLParen st = (st, []) := by
  intro st
  induction st with
  | nil => intro _; rfl
  | cons t rest ih =>
    intro h
    rw [List.mem_cons, not_or] at h
    obtain ⟨h1, h2⟩ := h
    simp only [popUntilLParen]
    rw [if_neg (fun he : t = '(' => h1 he.symm), ih h2]

/-- C9: `infixToPostfix` never raises an error (it is a total function
in this model, faithfully to the JS loop, which contains no throw): a
character that is not a space, variable, operator or parenthesis leaves
the state unchanged — silently skipped, contributing no token — and a
`)` scanned with no `(` on the operator stack raises no error and adds
no `)` token (it flushes the remaining operators to the output). -/
theorem infixToPostfix_total_permissive :
    (∀ (out st : List Char) (c : Char),
      c ≠ ' ' → isVariable c = false → c ≠ '(' → c ≠ ')' → isOperator c = false →
      infixStep (out, st) c = (out, st))
    ∧ (∀ out st : List Char, '(' ∉ st → infixStep (out, st) ')' = (out ++ st, []))
    ∧ infixToPostfix ")".toList = []
    ∧ infixToPostfix "#p?".toList = ['p'] := by
  refine ⟨?_, ?_, rfl, rfl⟩
  · intro out st c h1 h2 h3 h4 h5
    simp [infixStep, h1, h2, h3, h4, h5]
  · intro out st h
    have h0 : popUntilLParen st = (st, []) := popUntilLParen_no_paren st h
    unfold infixStep
    rw [if_neg (by decide : ¬((')' : Char) = ' ')),
      if_neg (by decide : ¬(isVariable ')' = true)),
      if_neg (by decide : ¬((')' : Char) = '(')),
      if_pos rfl, h0]

/-- C9 witness: the skip case at `#` and the unmatched-`)` case over a
stack holding `∧`. -/
theorem infixToPostfix_total_permissive_witness :
    infixStep ([], []) '#' = ([], [])
    ∧ infixStep ([], ['∧']) ')' = ([] ++ ['∧'], []) :=
  ⟨infixToPostfix_total_permissive.1 [] [] '#' (by decide) (by decide) (by decide)
      (by decide) (by decide),
    infixToPostfix_total_permissive.2.1 [] ['∧'] (by decide)⟩

/-- A result entry marked correct is necessarily an answered one. -/
theorem checkRow_isCorrect_isSome (answers : Nat → Option Bool) (p : Nat × Row) :
    (checkRow answers p).isCorrect = true → (checkRow answers p).userAnswer.isSome := by
  unfold checkRow
  cases h : answers p.1 <;> simp

/-- The `answered` counter counts exactly the row indices carrying a
submitted answer. -/
theorem answered_eq_countP (table : TruthTable) (answers : Nat → Option Bool) :
    (table.rows.enum.map (checkRow answers)).countP (fun r => r.userAnswer.isSome)
      = (List.range table.rows.length).countP (fun i => (answers i).isSome) := by
  rw [List.countP_map]
  have hcongr : ∀ x ∈ table.rows.enum,
      ((fun r : ResultRow => r.userAnswer.isSome) ∘ checkRow answers) x
        ↔ ((fun i => (answers i).isSome) ∘ Prod.fst) x := by
    intro x _
    simp only [Function.comp_apply]
    unfold checkRow
    cases h : answers x.1 <;> simp [h]
  rw [List.countP_congr hcongr, ← List.countP_map, List.enum_map_fst]

/-- The rounded tenths of `toFixed(1)` stay within half a tenth of the
exact percentage (lower bound inclusive: ties round up). -/
theorem scoreTenths_bounds (c t : Nat) (h : 0 < t) :
    2 * t * scoreTenths c t ≤ 2000 * c + t
    ∧ 2000 * c + t < 2 * t * (scoreTenths c t + 1) := by
  unfold scoreTenths
  have h2 : 0 < 2 * t := by omega
  constructor
  · calc 2 * t * ((2000 * c + t) / (2 * t))
        = (2000 * c + t) / (2 * t) * (2 * t) := Nat.mul_comm _ _
      _ ≤ 2000 * c + t := Nat.div_mul_le_self _ _
  · calc 2000 * c + t
        < ((2000 * c + t) / (2 * t) + 1) * (2 * t) :=
          (Nat.div_lt_iff_lt_mul h2).mp (Nat.lt_succ_self _)
      _ = 2 * t * ((2000 * c + t) / (2 * t) + 1) := Nat.mul_comm _ _

/-- C7: every `checkAnswers` result satisfies `correct ≤ answered ≤
total`, where `total` is the row count and `answered` counts the rows
with a submitted answer; `isComplete` holds exactly when
`answered = total`; the score is the number `0` when `total = 0`, and
otherwise the string of `correct/total*100` rounded to one decimal
place (the tenths value is the half-up rounding of the exact ratio). -/
theorem checkAnswers_spec :
    ∀ (table : TruthTable) (answers : Nat → Option Bool),
      (checkAnswers table answers).correct ≤ (checkAnswers table answers).answered
      ∧ (checkAnswers table answers).answered ≤ (checkAnswers table answers).total
      ∧ (checkAnswers table answers).total = table.rows.length
      ∧ (checkAnswers table answers).answered
          = (List.range table.rows.length).countP (fun i => (answers i).isSome)
      ∧ ((checkAnswers table answers).isComplete = true
          ↔ (checkAnswers table answers).answered = (checkAnswers table answers).total)
      ∧ ((checkAnswers table answers).total = 0
          → (checkAnswers table answers).score = ScoreVal.num 0)
      ∧ (0 < (checkAnswers table answers).total
          → (checkAnswers table answers).score
              = ScoreVal.str (scoreString (checkAnswers table answers).correct
                  (checkAnswers table answers).total)
            ∧ 2 * (checkAnswers table answers).total
                * scoreTenths (checkAnswers table answers).correct
                    (checkAnswers table answers).total
              ≤ 2000 * (checkAnswers table answers).correct
                  + (checkAnswers table answers).total
            ∧ 2000 * (checkAnswers table answers).correct
                + (checkAnswers table answers).total
              < 2 * (checkAnswers table answers).total
                * (scoreTenths (checkAnswers table answers).correct
                    (checkAnswers table answers).total + 1)) := by
  intro table answers
  simp only [checkAnswers]
  refine ⟨?_, ?_, by trivial, answered_eq_countP table answers, ?_, ?_, ?_⟩
  · refine List.countP_mono_left ?_
    intro r hr hc
    rw [List.mem_map] at hr
    obtain ⟨p, _, rfl⟩ := hr
    exact checkRow_isCorrect_isSome answers p hc
  · exact (List.countP_le_length _).trans (le_of_eq (by simp))
  · exact beq_iff_eq
  · intro h
    rw [if_neg (by omega)]
  · intro h
    rw [if_pos h]
    exact ⟨rfl, (scoreTenths_bounds _ _ h).1, (scoreTenths_bounds _ _ h).2⟩

/-- C7 witness: the inequalities, completeness test and score string at
a concrete two-row table with one answered row. -/
theorem checkAnswers_spec_witness :
    (checkAnswers wTable wAnswers).correct ≤ (checkAnswers wTable wAnswers).answered
    ∧ ((checkAnswers wTable wAnswers).isComplete = true
        ↔ (checkAnswers wTable wAnswers).answered = (checkAnswers wTable wAnswers).total)
    ∧ (checkAnswers wTable wAnswers).score
        = ScoreVal.str (scoreString (checkAnswers wTable wAnswers).correct
            (checkAnswers wTable wAnswers).total) := by
  obtain ⟨h1, h2, h3, h4, h5, h6, h7⟩ := checkAnswers_spec wTable wAnswers
  exact ⟨h1, h5, (h7 (by decide)).1⟩

/-- The entry of the results list at a valid row position. -/
theorem checkAnswers_results_getD (table : TruthTable) (answers : Nat → Option Bool)
    (i : Nat) (hi : i < table.rows.length) :
    (checkAnswers table answers).results.getD i defaultResultRow
      = checkRow answers (i, table.rows.getD i defaultRow) := by
  simp only [checkAnswers]
  rw [List.getD_eq_getElem?_getD, List.getElem?_map, List.getElem?_enum,
    List.getElem?_eq_getElem hi]
  rw [List.getD_eq_getElem?_getD, List.getElem?_eq_getElem hi]
  rfl

/-- C10: the results list of `checkAnswers` has one entry per row; the
entry of an unanswered row is `{index, userAnswer: null, correctAnswer:
the row's stored result, isCorrect: false}` (unanswered never counts as
correct), and the entry of an answered row records the submitted answer
and the stored result, with `isCorrect` true exactly when the submitted
boolean strictly equals the stored result. -/
theorem checkAnswers_results_spec :
    ∀ (table : TruthTable) (answers : Nat → Option Bool),
      (checkAnswers table answers).results.length = table.rows.length
      ∧ ∀ i : Nat, i < table.rows.length →
          ((checkAnswers table answers).results.getD i defaultResultRow).index = i
          ∧ (answers i = none →
              (checkAnswers table answers).results.getD i defaultResultRow
                = { index := i, userAnswer := none,
                    correctAnswer := (table.rows.getD i defaultRow).result,
                    isCorrect := false })
          ∧ (∀ u : Bool, answers i = some u →
              ((checkAnswers table answers).results.getD i defaultResultRow).userAnswer
                  = some u
              ∧ ((checkAnswers table answers).results.getD i defaultResultRow).correctAnswer
                  = (table.rows.getD i defaultRow).result
              ∧ (((checkAnswers table answers).results.getD i defaultResultRow).isCorrect
                    = true
                  ↔ JVal.bool u = (table.rows.getD i defaultRow).result)) := by
  intro table answers
  constructor
  · simp [checkAnswers]
  · intro i hi
    rw [checkAnswers_results_getD table answers i hi]
    refine ⟨?_, ?_, ?_⟩
    · unfold checkRow
      cases h : answers i <;> rfl
    · intro h
      simp [checkRow, h]
    · intro u h
      refine ⟨by simp [checkRow, h], by simp [checkRow, h], ?_⟩
      simp only [checkRow, h]
      rw [jsStrictEq]
      exact decide_eq_true_iff

/-- C10 witness: at the concrete table, row 0 (answered `false`) records
the submitted answer and row 1 (unanswered) is the null entry. -/
theorem checkAnswers_results_spec_witness :
    ((checkAnswers wTable wAnswers).results.getD 0 defaultResultRow).userAnswer
        = some false
    ∧ (checkAnswers wTable wAnswers).results.getD 1 defaultResultRow
        = { index := 1, userAnswer := none,
            correctAnswer := (wTable.rows.getD 1 defaultRow).result,
            isCorrect := false } := by
  have h := (checkAnswers_results_spec wTable wAnswers).2
  exact ⟨((h 0 (by decide)).2.2 false (by decide)).1, (h 1 (by decide)).2.1 (by decide)⟩

end MathLogic
